import Mathlib

/-!
Verification of the concurrency-bug detection core of GCBDetector
(`staticcheck/lint.go`).  The Go source is shallowly embedded: strings are
lists of characters (all strings involved are ASCII, so Go byte indices
coincide with character indices), SSA entities are inductive structures, and
each Go function is translated into an executable Lean definition of the same
name.  Go panics are modelled with `Option` where a claim depends on them.
-/

namespace GCB

/-- Go strings, modelled as lists of characters. -/
abbrev Str := List Char

/-- ASCII lower-casing of one character, as Go `strings.ToLower` acts on the
ASCII strings that occur here. -/
def lowerChar (c : Char) : Char :=
  if 'A' ≤ c ∧ c ≤ 'Z' then Char.ofNat (c.toNat + 32) else c

/-- Go `strings.ToLower` on ASCII strings. -/
def strLower (s : Str) : Str := s.map lowerChar

/-- Go `strings.Contains hay needle`. -/
def containsSub (hay needle : Str) : Bool :=
  match hay with
  | [] => needle.isEmpty
  | _ :: t => needle.isPrefixOf hay || containsSub t needle

/-- Go `strings.Index s sub`, as an `Option` (`none` for Go's `-1`). -/
def firstIdx (s sub : Str) : Option Nat :=
  match s with
  | [] => if sub.isEmpty then some 0 else none
  | _ :: t => if sub.isPrefixOf s then some 0 else (firstIdx t sub).map (· + 1)

/-- Go slicing `s[a:b]`: `none` models the panic on an invalid range. -/
def goSlice (s : Str) (a b : Nat) : Option Str :=
  if a ≤ b ∧ b ≤ s.length then some ((s.drop a).take (b - a)) else none

/-!
## The SSA data model

`FuncObj` carries what the checkers read off a resolved `*ssa.Function`
callee: its identity (`fid`, the index of the function in the program, used
for pointer comparisons and for entering its body), the `types.Func`
qualified name (`FullName`), the unqualified name (`Name`), the rendering of
the receiver type of its signature (if any), and whether its `Object()` is a
`*types.Func`.
-/

structure FuncObj where
  fid : Nat
  fullName : Str
  shortName : Str
  recvType : Option Str
  objIsFunc : Bool
deriving DecidableEq, Repr

/-- The callee `Value` of an `ssa.CallCommon`: a static `*ssa.Function`, a
`*ssa.MakeClosure` over a function, a `*ssa.Builtin`, or anything else
(dynamic value). -/
inductive CalleeVal where
  | fnV (f : FuncObj)
  | closureV (f : FuncObj)
  | builtinV (name : Str)
  | dynV
deriving DecidableEq, Repr

/-- An `ssa.CallCommon`: dispatch mode, callee value, the textual renderings
of the arguments (for method calls the receiver is argument 0), and the
textual rendering `CallCommon.String()`. -/
structure CallCommon where
  invoke : Bool
  callee : CalleeVal
  args : List Str
  render : Str
deriving DecidableEq, Repr

/-- What a `*ssa.UnOp`'s operand `X` is: a `*ssa.Call` value (with its
`CallCommon`) or any other value. -/
inductive UnOpX where
  | xCall (c : CallCommon)
  | xOther
deriving DecidableEq, Repr

/-- The closed tagged union of SSA instructions used by the checkers.
Value-producing instructions carry a register id (`Nat`); SSA guarantees
distinct instructions define distinct registers, so register ids model the
pointer comparisons `ex.Tuple != unop` and `ifstmt.Cond != ex`. -/
inductive Instr where
  | call (c : CallCommon)
  | deferI (c : CallCommon)
  | goI (c : CallCommon)
  | debugRef
  | unop (id : Nat) (isArrow : Bool) (x : UnOpX)
  | extract (id : Nat) (tupleId : Nat) (index : Nat)
  | ifI (condId : Nat)
  | jump
  | otherI
deriving DecidableEq, Repr

/-- A basic block: ordered instructions, successor and predecessor block
indices (within the parent function's block list). -/
structure BBlock where
  instrs : List Instr
  succs : List Nat
  preds : List Nat
deriving DecidableEq, Repr

/-- An `ssa.Function`: name, blocks (`[]` models `Blocks == nil`), and the
loop sets of the pre-computed `functions.Descriptions` (modelled from the
spec: each loop is a set of basic blocks of this function). -/
structure Func where
  name : Str
  blocks : List BBlock
  loops : List (List Nat)
deriving DecidableEq, Repr

/-- A program: all SSA functions (indexed by `fid`) and the indices of the
initial (user) functions. -/
structure Program where
  funcs : List Func
  initialFuncs : List Nat
deriving DecidableEq, Repr

/-- The location of an instruction: parent function index, block index,
instruction index.  Pointer equality of instructions is location equality. -/
structure Loc where
  fid : Nat
  bid : Nat
  idx : Nat
deriving DecidableEq, Repr

def funcAt (P : Program) (fid : Nat) : Option Func := P.funcs.get? fid

def blockAt (P : Program) (fid bid : Nat) : Option BBlock :=
  (funcAt P fid).bind (fun fn => fn.blocks.get? bid)

/-- The instruction list of a block, `[]` when the block does not exist. -/
def blkInstrs (P : Program) (fid bid : Nat) : List Instr :=
  match blockAt P fid bid with
  | some b => b.instrs
  | none => []

def instrAt (P : Program) (l : Loc) : Option Instr :=
  (blkInstrs P l.fid l.bid).get? l.idx

/-- The `*ssa.Call` at a location, if the instruction there is a call. -/
def callAt (P : Program) (l : Loc) : Option CallCommon :=
  match instrAt P l with
  | some (Instr.call c) => some c
  | _ => none

/-!
## Layer A adapters
-/

/-- Modelled from the spec: the `is_call_to(callsite, qualified_name)`
classifier of Layer A lives in `lint/lintdsl`, which is not under `src/`.
Its qualified call name is `""` for dynamic dispatch, the `types.Func`
FullName for a static `*ssa.Function` callee, and the builtin's name for a
`*ssa.Builtin`; `src/staticcheck/lint.go`'s own `_CallName` follows the same
shape.  `IsCallTo` compares that name with the wanted qualified name. -/
def CallName (c : CallCommon) : Str :=
  if c.invoke then [] else
  match c.callee with
  | CalleeVal.fnV f => if f.objIsFunc then f.fullName else []
  | CalleeVal.builtinV n => n
  | _ => []

def IsCallTo (c : CallCommon) (name : Str) : Bool := CallName c == name

/-- `shortCallName` (lint.go): the unqualified method name for static calls,
`""` for dynamic invokes. -/
def shortCallName (c : CallCommon) : Str :=
  if c.invoke then [] else
  match c.callee with
  | CalleeVal.fnV f => if f.objIsFunc then f.shortName else []
  | CalleeVal.builtinV n => n
  | _ => []

def nmMutexLock : Str := "(*sync.Mutex).Lock".toList
def nmRWMutexRLock : Str := "(*sync.RWMutex).RLock".toList
def nmRWMutexLock : Str := "(*sync.RWMutex).Lock".toList
def nmMutexUnlock : Str := "(*sync.Mutex).Unlock".toList
def nmRWMutexRUnlock : Str := "(*sync.RWMutex).RUnlock".toList
def nmRWMutexUnLockTypo : Str := "(*sync.RWMutex).UnLock".toList
def nmRWMutexUnlock : Str := "(*sync.RWMutex).Unlock".toList

def dotLockParen : Str := ".lock(".toList
def dotRLockParen : Str := ".rlock(".toList
def dotUnlock : Str := ".unlock".toList
def dotRUnlock : Str := ".runlock".toList

/-- `isCallToLock` (lint.go 444-464). -/
def isCallToLock (c : CallCommon) : Bool :=
  if IsCallTo c nmMutexLock || IsCallTo c nmRWMutexRLock || IsCallTo c nmRWMutexLock then
    true
  else
    let callStr := strLower c.render
    if containsSub callStr dotLockParen || containsSub callStr dotRLockParen then
      if c.args.length > 1 then false else true
    else false

/-- `isCallToUnlock` (lint.go 466-482).  Note the source checks the
non-existent method name `(*sync.RWMutex).UnLock` (capital L). -/
def isCallToUnlock (c : CallCommon) : Bool :=
  if IsCallTo c nmMutexUnlock || IsCallTo c nmRWMutexRUnlock ||
      IsCallTo c nmRWMutexUnLockTypo then
    true
  else
    let callStr := strLower c.render
    if containsSub callStr dotUnlock || containsSub callStr dotRUnlock then true
    else false

def invokeStr : Str := "invoke".toList
def spaceStr : Str := " ".toList
def dotStr : Str := ".".toList

/-- `getLockPrefix` (lint.go 484-500), total variant: where Go would panic
(`lockStr[start:end]` with `start > end`) this returns the junk value `[]`;
`getLockPrefixO` is the exact variant and the two agree on all
non-panicking inputs (`getLockPrefixO_eq`). -/
def getLockPrefix (c : CallCommon) : Str :=
  if c.args.length < 1 then
    let lockStr := c.render
    if containsSub lockStr invokeStr then
      match firstIdx lockStr spaceStr, firstIdx lockStr dotStr with
      | some start, some stop => (lockStr.drop start).take (stop - start)
      | _, _ => lockStr
    else lockStr
  else c.args.headD []

/-- `getLockPrefix` with the Go panic made explicit: `none` models the panic
of `lockStr[start:end]` on an invalid slice range. -/
def getLockPrefixO (c : CallCommon) : Option Str :=
  if c.args.length < 1 then
    let lockStr := c.render
    if containsSub lockStr invokeStr then
      match firstIdx lockStr spaceStr, firstIdx lockStr dotStr with
      | some start, some stop => goSlice lockStr start stop
      | _, _ => some lockStr
    else some lockStr
  else some (c.args.headD [])

/-- The go/ssa printer contract for call sites (an external collaborator of
the core, spec section 3: the textual rendering is part of the contract): a
non-invoke call with a named callee renders as that qualified name applied to
the parenthesized argument list, so the rendering starts with the callee name
followed by `(`. -/
def renderConsistent (c : CallCommon) : Prop :=
  CallName c ≠ [] → ∃ rest : Str, c.render = CallName c ++ '(' :: rest

/-!
## isLockToLockInSameBlock (lint.go 527-565)
-/

/-- The scanning loop of `isLockToLockInSameBlock`.  `k` is the running
instruction index, `fI`, `sI`, `uI` are the Go variables `fInstrIndex`,
`sInstrIndex`, `unlockIndex` (initially `-1`).  Pointer comparison of a
scanned call with `fLock`/`sLock` is comparison of `k` with the index of
`fLock`/`sLock` in the block. -/
def l2lAux (fIdx sIdx : Nat) (fPref : Str) :
    List Instr → Nat → Int → Int → Int → Bool
  | [], _, fI, sI, _ => decide (fI < sI)
  | ins :: rest, k, fI, sI, uI =>
    match ins with
    | Instr.call c =>
      if isCallToUnlock c && (getLockPrefix c == fPref) then
        if (decide ((if k = fIdx then (k : Int) else fI) < (k : Int)) &&
              sI == (-1 : Int) &&
              !((if k = fIdx then (k : Int) else fI) == (-1 : Int))) ||
            (decide (sI < (k : Int)) &&
              (if k = fIdx then (k : Int) else fI) == (-1 : Int) &&
              !(sI == (-1 : Int))) then
          false
        else
          l2lAux fIdx sIdx fPref rest (k + 1)
            (if k = fIdx then (k : Int) else fI)
            (if k = sIdx then (k : Int) else sI) (k : Int)
      else
        l2lAux fIdx sIdx fPref rest (k + 1)
          (if k = fIdx then (k : Int) else fI)
          (if k = sIdx then (k : Int) else sI) uI
    | _ => l2lAux fIdx sIdx fPref rest (k + 1) fI sI uI

/-- `isLockToLockInSameBlock` (lint.go 527-565).  The scanned block is
`fLock.Block()`; `fIdx` and `sIdx` are the indices of `fLock` and `sLock`
in it.  The lock prefix of `fLock` is read off the call at `fIdx`. -/
def isLockToLockInSameBlock (instrs : List Instr) (fIdx sIdx : Nat) : Bool :=
  let fPref :=
    match instrs.get? fIdx with
    | some (Instr.call c) => getLockPrefix c
    | _ => []
  l2lAux fIdx sIdx fPref instrs 0 (-1) (-1) (-1)

/-- Specification helper: the instruction at index `u` is an unlock call of
the lock prefix `fPref`. -/
def isUnlockPos (instrs : List Instr) (fPref : Str) (u : Nat) : Bool :=
  match instrs.get? u with
  | some (Instr.call c) => isCallToUnlock c && (getLockPrefix c == fPref)
  | _ => false

/-- Specification helper: some index `u` with `lo ≤ u ≤ hi` holds an unlock
call of `fPref`. -/
def unlockInRange (instrs : List Instr) (fPref : Str) (lo hi : Nat) : Bool :=
  (List.range (hi + 1)).any (fun u => decide (lo ≤ u) && isUnlockPos instrs fPref u)

/-- The value of `fInstrIndex` (resp. `sInstrIndex`) at the start of the
iteration with index `k`, given that the watched index holds a call. -/
def idxSt (watched k : Nat) : Int := if watched < k then (watched : Int) else -1

/-!
## isUnlockBeforeLock (lint.go 814-837)
-/

/-- An instruction that is a lock call of the given key. -/
def lockP (key : Str) (ins : Instr) : Bool :=
  match ins with
  | Instr.call c => isCallToLock c && (getLockPrefix c == key)
  | _ => false

/-- An instruction that is an unlock call of the given key. -/
def unlockP (key : Str) (ins : Instr) : Bool :=
  match ins with
  | Instr.call c => isCallToUnlock c && (getLockPrefix c == key)
  | _ => false

/-- Specification helper: the instruction at index `u` is a lock call of the
key. -/
def isLockPos (instrs : List Instr) (key : Str) (u : Nat) : Bool :=
  match instrs.get? u with
  | some ins => lockP key ins
  | none => false

/-- The scanning loop of `isUnlockBeforeLock`: `lockI` and `unLockI` are the
Go variables `lockIndex` and `unLockIndex` (initially `-1`), overwritten at
every matching call, so they end as the last matching indices. -/
def ublAux (lockKey : Str) : List Instr → Nat → Int → Int → Bool
  | [], _, lockI, unLockI => decide (unLockI < lockI)
  | ins :: rest, k, lockI, unLockI =>
    match ins with
    | Instr.call c =>
      ublAux lockKey rest (k + 1)
        (if isCallToLock c && (getLockPrefix c == lockKey) then (k : Int) else lockI)
        (if isCallToUnlock c && (getLockPrefix c == lockKey) then (k : Int) else unLockI)
    | _ => ublAux lockKey rest (k + 1) lockI unLockI

/-- `isUnlockBeforeLock` (lint.go 814-837): true iff the last unlock of the
key in the block precedes the last lock of the key. -/
def isUnlockBeforeLock (instrs : List Instr) (lockKey : Str) : Bool :=
  ublAux lockKey instrs 0 (-1) (-1)

/-- The last index `≥ k` (as an `Int`, seeded with `init`) of an instruction
of `l` satisfying `p`, where `l` is the suffix of the block starting at
index `k`. -/
def lastMatch (p : Instr → Bool) : List Instr → Nat → Int → Int
  | [], _, init => init
  | ins :: rest, k, init =>
    lastMatch p rest (k + 1) (if p ins then (k : Int) else init)

/-!
## Graph services (Layer B)
-/

/-- A generic first-hit search over a list. -/
def firstSome {α β : Type} (f : α → Option β) : List α → Option β
  | [] => none
  | a :: rest =>
    match f a with
    | some b => some b
    | none => firstSome f rest

/-- The resolved static callee of a call site (`ssa.CallCommon.StaticCallee`):
`none` for invoke mode, builtins and dynamic values. -/
def calleeFid (c : CallCommon) : Option Nat :=
  if c.invoke then none else
  match c.callee with
  | CalleeVal.fnV f => some f.fid
  | CalleeVal.closureV f => some f.fid
  | _ => none

/-- An edge of the function call graph: caller, call-site instruction,
callee, and whether the call site is a goroutine launch. -/
structure FCGEdge where
  src : Nat
  site : Loc
  dst : Nat
  isGo : Bool
deriving DecidableEq, Repr

/-- Modelled from the spec: the function call graph of the pre-computed
`functions.Descriptions` (not under `src/`), whose edges are the static call
sites of each function (spec section 2, Layer B, and the glossary: "Call
graph: directed graph over functions; edges are call sites"). -/
def fcgEdges (P : Program) (fid : Nat) : List FCGEdge :=
  match funcAt P fid with
  | none => []
  | some fn =>
    (List.range fn.blocks.length).flatMap (fun bid =>
      (List.range (blkInstrs P fid bid).length).flatMap (fun idx =>
        match (blkInstrs P fid bid).get? idx with
        | some (Instr.call c) =>
          match calleeFid c with
          | some d => [⟨fid, ⟨fid, bid, idx⟩, d, false⟩]
          | none => []
        | some (Instr.deferI c) =>
          match calleeFid c with
          | some d => [⟨fid, ⟨fid, bid, idx⟩, d, false⟩]
          | none => []
        | some (Instr.goI c) =>
          match calleeFid c with
          | some d => [⟨fid, ⟨fid, bid, idx⟩, d, true⟩]
          | none => []
        | _ => []))

/-- The depth-first search of `callgraph.PathSearchIgnoreGoCall`, with fuel. -/
def psAux (P : Program) (target : Nat) :
    Nat → Nat → List Nat → Option (List FCGEdge)
  | 0, _, _ => none
  | fuel + 1, fid, visited =>
    if fid = target then some []
    else
      firstSome (fun e =>
        if visited.contains e.dst then none
        else (psAux P target fuel e.dst (e.dst :: visited)).map (fun p => e :: p))
        ((fcgEdges P fid).filter (fun e => !e.isGo))

/-- Modelled from the spec: `path_search_ignoring_go(src_fn, predicate)`
(spec 4.5) finds a path in the function call graph from `src_fn` to a
function matching the predicate, skipping goroutine-launch edges, and
returns the sequence of call-site edges along the path; a source that
already matches yields the empty edge sequence (the source distinguishes
`pathResult != nil` from `len(pathResult) > 0` for exactly this case,
lint.go 981). -/
def pathSearchIgnoreGoCall (P : Program) (start target : Nat) :
    Option (List FCGEdge) :=
  psAux P target (P.funcs.length + 1) start [start]

/-- Whether a function exists and has a body. -/
def funcHasBlocks (P : Program) (fid : Nat) : Bool :=
  match funcAt P fid with
  | some fn => !fn.blocks.isEmpty
  | none => false

/-- Modelled from the spec: the successors of a node of the basic-block call
graph (spec 4.4): the block's intra-function successors plus cross-function
edges at call sites, entering the callee's entry block. -/
def bbSuccs (P : Program) (n : Nat × Nat) : List (Nat × Nat) :=
  match blockAt P n.1 n.2 with
  | none => []
  | some b =>
    b.succs.map (fun s => (n.1, s)) ++
      b.instrs.filterMap (fun ins =>
        match ins with
        | Instr.call c =>
          match calleeFid c with
          | some d => if funcHasBlocks P d then some (d, 0) else none
          | none => none
        | _ => none)

def totalBlocks (P : Program) : Nat :=
  (P.funcs.map (fun f => f.blocks.length)).sum

/-- The depth-first search of `bbcallgraph.LockPathSearch`, with fuel. -/
def lpsAux (P : Program) (dst : Nat × Nat) (prune : Nat × Nat → Bool) :
    Nat → Nat × Nat → List (Nat × Nat) → List (Nat × Nat) →
      Option (List (Nat × Nat))
  | 0, _, _, _ => none
  | fuel + 1, cur, visited, acc =>
    if (bbSuccs P cur).contains dst then some (acc ++ [dst])
    else
      firstSome (fun s =>
        if visited.contains s then none
        else if prune s then lpsAux P dst prune fuel s (s :: visited) (acc ++ [s])
        else none)
        (bbSuccs P cur)

/-- Modelled from the spec: `lock_path_search(src, dst, lock_key, prune)`
(spec 4.4) finds a path from `src` to `dst` whose intermediate nodes satisfy
the prune predicate, in depth-first order, never revisiting a node of the
current path; it returns a satisfying path (non-empty) or the empty list. -/
def lockPathSearch (P : Program) (src dst : Nat × Nat)
    (prune : Nat × Nat → Bool) : List (Nat × Nat) :=
  match lpsAux P dst prune (totalBlocks P + 1) src [src] [src] with
  | some p => p
  | none => []

/-- `isInLoop` (lint.go 186-194), over the loop sets of the pre-computed
descriptions. -/
def isInLoop (P : Program) (fid bid : Nat) : Bool :=
  match funcAt P fid with
  | some fn => fn.loops.any (fun s => s.contains bid)
  | none => false

/-!
## findPath and the double-lock decision (lint.go 839-1018)
-/

/-- The prune predicate passed by `findPath` to the lock-path search
(lint.go 877-894): a node survives unless it unlocks the key before any lock
of the key among its call instructions. -/
def pruneScan (lockKey : Str) : List Instr → Bool
  | [] => true
  | ins :: rest =>
    match ins with
    | Instr.call c =>
      if isCallToUnlock c && (getLockPrefix c == lockKey) then false
      else if isCallToLock c && (getLockPrefix c == lockKey) then true
      else pruneScan lockKey rest
    | _ => pruneScan lockKey rest

def pruneNoUnlock (P : Program) (lockKey : Str) (n : Nat × Nat) : Bool :=
  pruneScan lockKey (blkInstrs P n.1 n.2)

/-- The first loop of `findPath` (lint.go 841-850): some call instruction of
the block unlocks the key. -/
def hasUnlockInBlock (P : Program) (lockKey : Str) (n : Nat × Nat) : Bool :=
  (blkInstrs P n.1 n.2).any (fun ins =>
    match ins with
    | Instr.call c => isCallToUnlock c && (getLockPrefix c == lockKey)
    | _ => false)

/-- `findPath` (lint.go 839-903): search suppressed when the source block
unlocks the key or when the destination block's last unlock of the key
precedes its last lock of the key; otherwise a pruned lock-path search. -/
def findPath (P : Program) (fN sN : Nat × Nat) (lockKey : Str) : Bool :=
  if !(hasUnlockInBlock P lockKey fN) &&
      !(isUnlockBeforeLock (blkInstrs P sN.1 sN.2) lockKey) then
    decide ((lockPathSearch P fN sN (pruneNoUnlock P lockKey)).length > 0)
  else false

/-- `_isDoubleLock` (lint.go 905-1018).  Instructions are addressed by
location; the `*ssa.Call` arguments of the Go function are the calls at the
two locations (`callAt`). -/
def _isDoubleLock (P : Program) (fLoc sLoc : Loc) (lockKey : Str) : Bool :=
  match callAt P fLoc, callAt P sLoc with
  | some fC, some sC =>
    if !(shortCallName fC == shortCallName sC) then false
    else
      -- isNotNeedFindPathSearch after the intra-procedural cases
      let n1 : Bool :=
        if fLoc.fid = sLoc.fid ∧ fLoc.bid = sLoc.bid then
          if isLockToLockInSameBlock (blkInstrs P fLoc.fid fLoc.bid)
              fLoc.idx sLoc.idx then true
          else if isInLoop P fLoc.fid fLoc.bid then
            findPath P (fLoc.fid, fLoc.bid) (sLoc.fid, sLoc.bid) lockKey
          else false
        else if fLoc.fid = sLoc.fid then
          findPath P (fLoc.fid, fLoc.bid) (sLoc.fid, sLoc.bid) lockKey
        else false
      if n1 then true
      else
        match pathSearchIgnoreGoCall P fLoc.fid sLoc.fid with
        | some (e :: _) =>
          if isUnlockBeforeLock (blkInstrs P sLoc.fid sLoc.bid) lockKey then
            false
          else
            match instrAt P e.site with
            | some (Instr.call _) =>
              if e.site.fid = fLoc.fid ∧ e.site.bid = fLoc.bid then
                isLockToLockInSameBlock (blkInstrs P fLoc.fid fLoc.bid)
                  fLoc.idx e.site.idx
              else
                findPath P (fLoc.fid, fLoc.bid) (e.site.fid, e.site.bid) lockKey
            | _ => false
        | _ => false
  | _, _ => false

/-!
## applyStdlibKnowledge (lint.go 196-249)
-/

def timeTickName : Str := "time.Tick".toList

/-- The pointer list built before the scan (lint.go 213-219): the indices of
the non-`DebugRef` slots of the block's instruction list, in order. -/
def nonDebugIdxs (instrs : List Instr) : List Nat :=
  (List.range instrs.length).filter (fun i =>
    match instrs.get? i with
    | some Instr.debugRef => false
    | _ => true)

/-- The head of the rewrite pattern (lint.go 222-231): the slot holds a
receive `UnOp` whose operand is a call to `time.Tick`; returns the unop's
register. -/
def tickUnopId (cur : List Instr) (idx : Nat) : Option Nat :=
  match cur.get? idx with
  | some (Instr.unop id isArrow x) =>
    if !isArrow then none
    else
      match x with
      | UnOpX.xCall c => if IsCallTo c timeTickName then some id else none
      | UnOpX.xOther => none
  | _ => none

/-- The second slot of the pattern (lint.go 233-236): an `Extract` of
component 1 of the unop's tuple; returns the extract's register. -/
def extractIdOf (cur : List Instr) (idx uid : Nat) : Option Nat :=
  match cur.get? idx with
  | some (Instr.extract id tup index) =>
    if tup == uid && index == 1 then some id else none
  | _ => none

/-- The third slot of the pattern (lint.go 238-241): an `If` conditioned on
the extract's register. -/
def ifCondMatches (cur : List Instr) (idx exid : Nat) : Bool :=
  match cur.get? idx with
  | some (Instr.ifI cond) => cond == exid
  | _ => false

/-- The scanning loop of `applyStdlibKnowledge` over one block (lint.go
221-247).  `rest` is the remaining suffix of the non-debug index list `all`,
`pos` its position; `cur` is the current (possibly already rewritten)
instruction list; `m` records the rewrite performed so far, as the rewritten
slot and the dropped successor.  The outer `none` models a Go panic: an
out-of-range access `instrs[i+1]` / `instrs[i+2]`, or `block.Succs[1]` after
a first match has already truncated the successor list. -/
def sgAux (all : List Nat) (succs : List Nat) :
    Nat → List Nat → List Instr → Option (Nat × Nat) →
      Option (Option (Nat × Nat))
  | _, [], _, m => some m
  | pos, idx :: rest2, cur, m =>
    match tickUnopId cur idx with
    | none => sgAux all succs (pos + 1) rest2 cur m
    | some uid =>
      match all.get? (pos + 1) with
      | none => none
      | some idx1 =>
        match extractIdOf cur idx1 uid with
        | none => sgAux all succs (pos + 1) rest2 cur m
        | some exid =>
          match all.get? (pos + 2) with
          | none => none
          | some idx2 =>
            if ifCondMatches cur idx2 exid then
              match m with
              | some _ => none
              | none =>
                match succs.get? 1 with
                | none => none
                | some s1 =>
                  sgAux all succs (pos + 1) rest2 (cur.set idx2 Instr.jump)
                    (some (idx2, s1))
            else sgAux all succs (pos + 1) rest2 cur m

/-- What `applyStdlibKnowledge` decides for one block, reading only its
instruction and successor lists (lint.go 206-212 guards, then the scan):
`none` is a panic, `some none` no rewrite, `some (some (p, s1))` a rewrite
of slot `p` to a jump, truncating the successors and dropping `s1`. -/
def blockDecision (b : BBlock) : Option (Option (Nat × Nat)) :=
  if b.instrs.length < 3 then some none
  else if b.succs.length ≠ 2 then some none
  else sgAux (nonDebugIdxs b.instrs) b.succs 0 (nonDebugIdxs b.instrs)
    b.instrs none

/-- The in-place rewrite of a matched block (lint.go 243-245): the `If` slot
becomes a jump and only the first successor is kept. -/
def rewriteBlock (b : BBlock) (p : Nat) : BBlock :=
  ⟨b.instrs.set p Instr.jump, b.succs.take 1, b.preds⟩

/-- Modelled from the spec: `succ.RemovePred(block)` of the repository's ssa
package is not under `src/`; spec 4.2 says edge removal must also remove the
predecessor from the dropped successor, so the block is erased from the
successor's predecessor list. -/
def removePredAt (B : List BBlock) (s1 bid : Nat) : List BBlock :=
  match B.get? s1 with
  | none => B
  | some sb => B.set s1 ⟨sb.instrs, sb.succs, sb.preds.erase bid⟩

/-- Processing of one block of `applyStdlibKnowledge`. -/
def applyBlock (B : List BBlock) (bid : Nat) : Option (List BBlock) :=
  match B.get? bid with
  | none => some B
  | some b =>
    match blockDecision b with
    | none => none
    | some none => some B
    | some (some (p, s1)) =>
      some (removePredAt (B.set bid (rewriteBlock b p)) s1 bid)

def foldBlocks : List Nat → List BBlock → Option (List BBlock)
  | [], B => some B
  | bid :: rest, B =>
    match applyBlock B bid with
    | none => none
    | some B2 => foldBlocks rest B2

/-- `applyStdlibKnowledge` (lint.go 196-249): `none` models a Go panic. -/
def applyStdlibKnowledge (fn : Func) : Option Func :=
  if fn.blocks.isEmpty then some fn
  else
    (foldBlocks (List.range fn.blocks.length) fn.blocks).map
      (fun B => ⟨fn.name, B, fn.loops⟩)

/-- The instruction and successor lists of a block of `B` — everything the
per-block decision reads. -/
def coreAt (B : List BBlock) (j : Nat) : Option (List Instr × List Nat) :=
  (B.get? j).map (fun b => (b.instrs, b.succs))

/-- The decision at an index (`some none` for a missing index, which the
fold never touches). -/
def decisionAt (B : List BBlock) (j : Nat) : Option (Option (Nat × Nat)) :=
  match B.get? j with
  | none => some none
  | some b => blockDecision b

/-!
## CheckConcurrentTesting (lint.go 672-728)
-/

/-- The switch on `gostmt.Call.Value` (lint.go 680-688): the launched
function, unwrapping a closure; `none` for any other callee value. -/
def goTargetFid (c : CallCommon) : Option Nat :=
  match c.callee with
  | CalleeVal.fnV f => some f.fid
  | CalleeVal.closureV f => some f.fid
  | _ => none

/-- `ssa.CallCommon.StaticCallee` as a function object: `none` in invoke
mode and for non-function callee values. -/
def staticCalleeObj (c : CallCommon) : Option FuncObj :=
  if c.invoke then none else
  match c.callee with
  | CalleeVal.fnV f => some f
  | CalleeVal.closureV f => some f
  | _ => none

def testingFatalNames : List Str :=
  ["FailNow".toList, "Fatal".toList, "Fatalf".toList, "SkipNow".toList,
    "Skip".toList, "Skipf".toList]

/-- The per-call filter of `CheckConcurrentTesting` (lint.go 693-721): a
non-invoke static call on a `*testing.common` receiver to one of the fatal
test methods, returning the method name to report. -/
def qualifyingTestCall (c : CallCommon) : Option Str :=
  if c.invoke then none
  else
    match staticCalleeObj c with
    | none => none
    | some f =>
      match f.recvType with
      | none => none
      | some rt =>
        if !(rt == "*testing.common".toList) then none
        else if !f.objIsFunc then none
        else if testingFatalNames.contains f.shortName then some f.shortName
        else none

/-- A diagnostic of `CheckConcurrentTesting`: the reported go instruction
and the fatal method name. -/
structure CTDiag where
  goLoc : Loc
  name : Str
deriving DecidableEq, Repr

/-- The inner double loop of `CheckConcurrentTesting` (lint.go 692-724): the
reports produced by scanning the launched function's own blocks. -/
def goReports (P : Program) (targetFid : Nat) : List Str :=
  match funcAt P targetFid with
  | none => []
  | some fn =>
    if fn.blocks.isEmpty then []
    else
      fn.blocks.flatMap (fun b =>
        b.instrs.filterMap (fun ins =>
          match ins with
          | Instr.call c => qualifyingTestCall c
          | _ => none))

/-- `CheckConcurrentTesting` (lint.go 672-728). -/
def checkConcurrentTesting (P : Program) : List CTDiag :=
  P.initialFuncs.flatMap (fun fid =>
    match funcAt P fid with
    | none => []
    | some fn =>
      (List.range fn.blocks.length).flatMap (fun bid =>
        (List.range (blkInstrs P fid bid).length).flatMap (fun idx =>
          match (blkInstrs P fid bid).get? idx with
          | some (Instr.goI c) =>
            match goTargetFid c with
            | some t => (goReports P t).map (fun nm => ⟨⟨fid, bid, idx⟩, nm⟩)
            | none => []
          | _ => [])))

/-- Follows the claim's and the spec's wording ("transitively contains", spec
4.7): a function contains a qualifying `*testing.common` fatal call in its
own blocks or, recursively, in a function reached through a static call
site.  Used only to compare the claim against `checkConcurrentTesting`. -/
def specTransFatalAux (P : Program) : Nat → Nat → Bool
  | 0, _ => false
  | fuel + 1, fid =>
    match funcAt P fid with
    | none => false
    | some fn =>
      fn.blocks.any (fun b =>
        b.instrs.any (fun ins =>
          match ins with
          | Instr.call c => (qualifyingTestCall c).isSome
          | _ => false)) ||
      fn.blocks.any (fun b =>
        b.instrs.any (fun ins =>
          match ins with
          | Instr.call c =>
            match calleeFid c with
            | some d => specTransFatalAux P fuel d
            | none => false
          | _ => false))

def specTransFatal (P : Program) (fid : Nat) : Bool :=
  specTransFatalAux P (P.funcs.length + 1) fid

/-!
## CheckDoubleLock (lint.go 502-525, 1020-1064)
-/

/-- Appending a lock instruction under its key, preserving first-insertion
key order (the per-key lists of a Go map built by `append`). -/
def assocAppend (m : List (Str × List Loc)) (key : Str) (l : Loc) :
    List (Str × List Loc) :=
  match m with
  | [] => [(key, [l])]
  | (k, v) :: rest =>
    if k == key then (k, v ++ [l]) :: rest
    else (k, v) :: assocAppend rest key l

def lookupLocks (m : List (Str × List Loc)) (key : Str) : List Loc :=
  match m with
  | [] => []
  | (k, v) :: rest => if k == key then v else lookupLocks rest key

/-- `collectLockInstrs` (lint.go 502-525): all lock calls of a function,
grouped by lock key, in block order then instruction order. -/
def collectLockInstrs (P : Program) (fid : Nat) : List (Str × List Loc) :=
  match funcAt P fid with
  | none => []
  | some fn =>
    (List.range fn.blocks.length).foldl (fun m bid =>
      (List.range (blkInstrs P fid bid).length).foldl (fun m2 idx =>
        match (blkInstrs P fid bid).get? idx with
        | some (Instr.call c) =>
          if isCallToLock c then assocAppend m2 (getLockPrefix c) ⟨fid, bid, idx⟩
          else m2
        | _ => m2) m) []

/-- The collection step of `CheckDoubleLock` (lint.go 1022-1036): the lock
instructions of all initial functions, merged per key. -/
def collectAllLocks (P : Program) : List (Str × List Loc) :=
  P.initialFuncs.foldl (fun m fid =>
    (collectLockInstrs P fid).foldl (fun m2 kv =>
      kv.2.foldl (fun m3 l => assocAppend m3 kv.1 l) m2) m) []

/-- A double-lock diagnostic: the forward form reports the first lock with
the positions of both locks; the reverse form reports the second lock with
the position of the first. -/
inductive Diag where
  | fwd (at_ : Loc) (name : Str) (sPos : Loc)
  | rev (at_ : Loc) (name : Str) (fPos : Loc)
deriving DecidableEq, Repr

def nameAt (P : Program) (l : Loc) : Str :=
  match callAt P l with
  | some c => shortCallName c
  | none => []

/-- The pair loop of `CheckDoubleLock` (lint.go 1038-1063) for one key:
ordered pairs `i ≤ t`, plus the reverse pair when the locations differ. -/
def pairDiags (P : Program) (key : Str) (locs : List Loc) : List Diag :=
  (List.range locs.length).flatMap (fun i =>
    (List.range (locs.length - i)).flatMap (fun d =>
      let fLoc := locs.getD i ⟨0, 0, 0⟩
      let sLoc := locs.getD (i + d) ⟨0, 0, 0⟩
      (if _isDoubleLock P fLoc sLoc key then
        [Diag.fwd fLoc (nameAt P fLoc) sLoc]
      else []) ++
      (if fLoc ≠ sLoc ∧ _isDoubleLock P sLoc fLoc key = true then
        [Diag.rev sLoc (nameAt P sLoc) fLoc]
      else [])))

/-- `CheckDoubleLock` (lint.go 1020-1064).  The Go source iterates the map
`lockInstructions` with `range`, whose order the Go specification leaves
undefined (and the runtime randomizes); `keyOrder` makes that iteration
order an explicit parameter. -/
def checkDoubleLock (P : Program) (keyOrder : List Str) : List Diag :=
  keyOrder.flatMap (fun k => pairDiags P k (lookupLocks (collectAllLocks P) k))

/-!
## Concrete example call sites (used by witnesses and counterexamples)
-/

/-- A dynamic invoke lock call with no argument rendering. -/
def exInvokeCall : CallCommon :=
  ⟨true, CalleeVal.dynV, [], "invoke t65.Lock()".toList⟩

/-- A static call to `(*sync.Mutex).Lock` on receiver `t0`. -/
def exMutexLockCall : CallCommon :=
  ⟨false,
    CalleeVal.fnV ⟨99, "(*sync.Mutex).Lock".toList, "Lock".toList,
      some "*sync.Mutex".toList, true⟩,
    ["t0".toList], "(*sync.Mutex).Lock(t0)".toList⟩

/-- A static call to `(*sync.Mutex).Unlock` on receiver `t0`. -/
def exMutexUnlockCall : CallCommon :=
  ⟨false,
    CalleeVal.fnV ⟨97, "(*sync.Mutex).Unlock".toList, "Unlock".toList,
      some "*sync.Mutex".toList, true⟩,
    ["t0".toList], "(*sync.Mutex).Unlock(t0)".toList⟩

/-- A static call to the real method `(*sync.RWMutex).Unlock`. -/
def exRWUnlockCall : CallCommon :=
  ⟨false,
    CalleeVal.fnV ⟨98, "(*sync.RWMutex).Unlock".toList, "Unlock".toList,
      some "*sync.RWMutex".toList, true⟩,
    ["t0".toList], "(*sync.RWMutex).Unlock(t0)".toList⟩

/-- A static call to a user method `Lock` of a type from the package path
`my.unlock.io/pkg`, on receiver `t0`.  Its lowered rendering contains both
`.lock(` and `.unlock`, so the textual heuristics classify it as a lock call
and as an unlock call at the same time. -/
def exOddLockCall : CallCommon :=
  ⟨false,
    CalleeVal.fnV ⟨96, "(*my.unlock.io/pkg.T).Lock".toList, "Lock".toList,
      some "*my.unlock.io/pkg.T".toList, true⟩,
    ["t0".toList], "(*my.unlock.io/pkg.T).Lock(t0)".toList⟩

/-- A static `(*sync.Mutex).Lock` call on the given receiver rendering. -/
def lockCallOn (recv : Str) : CallCommon :=
  ⟨false,
    CalleeVal.fnV ⟨99, "(*sync.Mutex).Lock".toList, "Lock".toList,
      some "*sync.Mutex".toList, true⟩,
    [recv], "(*sync.Mutex).Lock(".toList ++ recv ++ ")".toList⟩

/-- A static `(*sync.Mutex).Unlock` call on the given receiver rendering. -/
def unlockCallOn (recv : Str) : CallCommon :=
  ⟨false,
    CalleeVal.fnV ⟨97, "(*sync.Mutex).Unlock".toList, "Unlock".toList,
      some "*sync.Mutex".toList, true⟩,
    [recv], "(*sync.Mutex).Unlock(".toList ++ recv ++ ")".toList⟩

/-- An example program with one initial function of three straight-line
blocks, double-locking the key `t1` across blocks 0 and 1 and the key `t2`
across blocks 1 and 2 (each second lock is later released, so the
destination block does not suppress the search). -/
def exP8 : Program :=
  ⟨[⟨"f".toList,
      [⟨[Instr.call (lockCallOn "t1".toList)], [1], []⟩,
       ⟨[Instr.call (lockCallOn "t1".toList),
         Instr.call (unlockCallOn "t1".toList),
         Instr.call (lockCallOn "t2".toList)], [2], [0]⟩,
       ⟨[Instr.call (lockCallOn "t2".toList),
         Instr.call (unlockCallOn "t2".toList)], [], [1]⟩],
      []⟩],
    [0]⟩

/-- A go instruction's call to the function with index 1. -/
def exGoCall : CallCommon :=
  ⟨false, CalleeVal.fnV ⟨1, "main.g".toList, "g".toList, none, true⟩,
    [], "g()".toList⟩

/-- A plain static call to the function with index 2. -/
def exPlainCall : CallCommon :=
  ⟨false, CalleeVal.fnV ⟨2, "main.h".toList, "h".toList, none, true⟩,
    [], "h()".toList⟩

/-- A static call to `(*testing.common).FailNow`. -/
def exFatalCall : CallCommon :=
  ⟨false,
    CalleeVal.fnV ⟨50, "(*testing.common).FailNow".toList, "FailNow".toList,
      some "*testing.common".toList, true⟩,
    ["t0".toList], "(*testing.common).FailNow(t0)".toList⟩

/-- An example program where the initial function launches `g` in a
goroutine, `g` calls `h`, and only `h` contains a `(*testing.common)` fatal
call: the go target transitively reaches the fatal call but does not contain
one in its own blocks. -/
def exP6 : Program :=
  ⟨[⟨"f".toList, [⟨[Instr.goI exGoCall], [], []⟩], []⟩,
    ⟨"g".toList, [⟨[Instr.call exPlainCall], [], []⟩], []⟩,
    ⟨"h".toList, [⟨[Instr.call exFatalCall], [], []⟩], []⟩],
    [0]⟩

/-!
## Supporting lemmas
-/

theorem containsSub_isInfix_iff (hay needle : Str) :
    containsSub hay needle = true ↔ needle <:+: hay := by
  induction hay with
  | nil =>
    simp [containsSub, List.isEmpty_iff]
  | cons a t ih =>
    simp only [containsSub, Bool.or_eq_true, List.isPrefixOf_iff_prefix, ih,
      List.infix_cons_iff]

theorem containsSub_append_left (a b needle : Str)
    (h : containsSub a needle = true) : containsSub (a ++ b) needle = true := by
  rw [containsSub_isInfix_iff] at h ⊢
  exact h.trans (List.prefix_append a b).isInfix

theorem firstIdx_le_length (s sub : Str) (i : Nat) (h : firstIdx s sub = some i) :
    i + sub.length ≤ s.length := by
  induction s generalizing i with
  | nil =>
    by_cases he : sub.isEmpty <;> simp [firstIdx, he] at h
    rcases h with ⟨rfl⟩
    simp [List.isEmpty_iff] at he
    simp [he]
  | cons a t ih =>
    by_cases hp : sub.isPrefixOf (a :: t)
    · simp [firstIdx, hp] at h
      rcases h with ⟨rfl⟩
      have := List.isPrefixOf_iff_prefix.mp hp
      simpa using this.length_le
    · simp [firstIdx, hp] at h
      rcases h with ⟨j, hj, rfl⟩
      have := ih j hj
      simp [List.length_cons]
      omega

theorem getLockPrefixO_eq (c : CallCommon) (s : Str)
    (h : getLockPrefixO c = some s) : getLockPrefix c = s := by
  unfold getLockPrefixO at h
  unfold getLockPrefix
  by_cases ha : c.args.length < 1
  · simp only [if_pos ha] at h ⊢
    by_cases hi : containsSub c.render invokeStr
    · simp only [if_pos hi] at h ⊢
      rcases hs : firstIdx c.render spaceStr with _ | start <;>
        rcases hd : firstIdx c.render dotStr with _ | stop <;>
        simp only [hs, hd] at h ⊢ <;> try (exact (Option.some_inj.mp h))
      unfold goSlice at h
      split at h
      · exact Option.some_inj.mp h
      · exact absurd h (by simp)
    · simp only [if_neg hi] at h ⊢
      exact Option.some_inj.mp h
  · simp only [if_neg ha] at h ⊢
    exact Option.some_inj.mp h

/-- The lowered rendering of a call whose qualified call name is `n` contains
every infix of `strLower n`, by the printer contract. -/
theorem containsSub_lower_render (c : CallCommon) (hr : renderConsistent c)
    (n needle : Str) (hn : CallName c = n) (hne : n ≠ [])
    (hc : containsSub (strLower n) needle = true) :
    containsSub (strLower c.render) needle = true := by
  rcases hr (hn ▸ hne) with ⟨rest, hrest⟩
  rw [hrest, hn]
  unfold strLower
  rw [List.map_append]
  exact containsSub_append_left _ _ _ hc

/-!
## Claim theorems: the lock taxonomy (C3, C4, C5, C9)
-/

/-- C3: `getLockPrefix` returns the rendering of argument 0 when the call has
at least one argument; otherwise, when the rendering contains `invoke` and
both a space and a dot occur (the space first), the slice of the rendering
from the first space to the first dot; otherwise the full rendering. -/
theorem C3_getLockPrefix_cases (c : CallCommon) :
    (c.args ≠ [] → getLockPrefix c = c.args.headD []) ∧
    (∀ si di : Nat, c.args = [] → containsSub c.render invokeStr = true →
      firstIdx c.render spaceStr = some si → firstIdx c.render dotStr = some di →
      si ≤ di → getLockPrefix c = (c.render.drop si).take (di - si)) ∧
    (c.args = [] → containsSub c.render invokeStr = false →
      getLockPrefix c = c.render) := by
  refine ⟨?_, ?_, ?_⟩
  · intro ha
    have hlen : ¬ c.args.length < 1 := by
      cases hc : c.args with
      | nil => exact absurd hc ha
      | cons x xs => simp [hc]
    simp [getLockPrefix, hlen]
  · intro si di ha hi hs hd _
    have hlen : c.args.length < 1 := by simp [ha]
    simp [getLockPrefix, hlen, hi, hs, hd]
  · intro ha hi
    have hlen : c.args.length < 1 := by simp [ha]
    simp [getLockPrefix, hlen, hi]

/-- C3 witness: a zero-argument invoke-rendered call. -/
theorem C3_getLockPrefix_cases_witness :
    getLockPrefix exInvokeCall = " t65".toList := by
  have h := (C3_getLockPrefix_cases exInvokeCall).2.1 6 10
    (by decide) (by decide) (by decide) (by decide) (by decide)
  rw [h]
  decide

/-- C9: `getLockPrefix` never panics, provided that in every zero-or-more
argument rendering that contains `invoke` together with a space and a dot,
the first space precedes the first dot (as the go/ssa `invoke recv.Method(…)`
rendering guarantees).  `getLockPrefixO` makes the Go slice panic explicit. -/
theorem C9_getLockPrefix_total (c : CallCommon)
    (h : ∀ si di : Nat, containsSub c.render invokeStr = true →
      firstIdx c.render spaceStr = some si → firstIdx c.render dotStr = some di →
      si < di) :
    (getLockPrefixO c).isSome = true := by
  unfold getLockPrefixO
  by_cases ha : c.args.length < 1
  · simp only [if_pos ha]
    by_cases hi : containsSub c.render invokeStr
    · simp only [if_pos hi]
      rcases hs : firstIdx c.render spaceStr with _ | si <;>
        rcases hd : firstIdx c.render dotStr with _ | di <;> simp
      have hlt := h si di hi hs hd
      have hlen := firstIdx_le_length c.render dotStr di hd
      simp [dotStr] at hlen
      unfold goSlice
      have : si ≤ di ∧ di ≤ c.render.length := ⟨Nat.le_of_lt hlt, by omega⟩
      simp [this]
    · simp [hi]
  · simp [ha]

/-- C9 witness. -/
theorem C9_getLockPrefix_total_witness :
    (getLockPrefixO exInvokeCall).isSome = true :=
  C9_getLockPrefix_total exInvokeCall (by
    intro si di _ hs hd
    have h6 : firstIdx exInvokeCall.render spaceStr = some 6 := by decide
    have h10 : firstIdx exInvokeCall.render dotStr = some 10 := by decide
    rw [h6] at hs
    rw [h10] at hd
    have : si = 6 := (Option.some_inj.mp hs).symm
    have : di = 10 := (Option.some_inj.mp hd).symm
    omega)

/-- C4: `isCallToLock` accepts every call to one of the three sync lock
methods, and an other call whose lowered rendering contains `.lock(` or
`.rlock(` exactly when it has at most one argument. -/
theorem C4_isCallToLock_spec (c : CallCommon) :
    ((IsCallTo c nmMutexLock = true ∨ IsCallTo c nmRWMutexRLock = true ∨
        IsCallTo c nmRWMutexLock = true) → isCallToLock c = true) ∧
    (¬ (IsCallTo c nmMutexLock = true ∨ IsCallTo c nmRWMutexRLock = true ∨
        IsCallTo c nmRWMutexLock = true) →
      (containsSub (strLower c.render) dotLockParen = true ∨
        containsSub (strLower c.render) dotRLockParen = true) →
      (isCallToLock c = true ↔ c.args.length ≤ 1)) := by
  constructor
  · intro h
    have hcond : (IsCallTo c nmMutexLock || IsCallTo c nmRWMutexRLock ||
        IsCallTo c nmRWMutexLock) = true := by
      rcases h with h | h | h <;> simp [h]
    simp [isCallToLock, hcond]
  · intro hno htxt
    have hcond : (IsCallTo c nmMutexLock || IsCallTo c nmRWMutexRLock ||
        IsCallTo c nmRWMutexLock) = false := by
      rcases h1 : IsCallTo c nmMutexLock <;> rcases h2 : IsCallTo c nmRWMutexRLock <;>
        rcases h3 : IsCallTo c nmRWMutexLock <;> simp_all
    have htxt' : (containsSub (strLower c.render) dotLockParen ||
        containsSub (strLower c.render) dotRLockParen) = true := by
      rcases htxt with h | h <;> simp [h]
    have hval : isCallToLock c = (if c.args.length > 1 then false else true) := by
      simp only [isCallToLock, hcond, Bool.false_eq_true, if_false, htxt', if_true]
    rw [hval]
    by_cases hl : c.args.length > 1
    · simp only [hl, if_true, Bool.false_eq_true, false_iff]
      omega
    · simp only [hl, if_false]
      simp only [true_iff]
      omega

/-- C4 witness. -/
theorem C4_isCallToLock_spec_witness : isCallToLock exMutexLockCall = true :=
  (C4_isCallToLock_spec exMutexLockCall).1 (Or.inl (by decide))

/-- C5: under the printer contract, `isCallToUnlock` accepts every call to
`(*sync.Mutex).Unlock`, `(*sync.RWMutex).RUnlock` or `(*sync.RWMutex).Unlock`
(the last one via the textual containment, since the source spells the
qualified name with the typo `UnLock`), accepts every call whose lowered
rendering contains `.unlock` or `.runlock`, and rejects every other call. -/
theorem C5_isCallToUnlock_spec (c : CallCommon) (hr : renderConsistent c) :
    ((IsCallTo c nmMutexUnlock = true ∨ IsCallTo c nmRWMutexRUnlock = true ∨
        IsCallTo c nmRWMutexUnlock = true) → isCallToUnlock c = true) ∧
    ((containsSub (strLower c.render) dotUnlock = true ∨
        containsSub (strLower c.render) dotRUnlock = true) →
      isCallToUnlock c = true) ∧
    (¬ (IsCallTo c nmMutexUnlock = true ∨ IsCallTo c nmRWMutexRUnlock = true ∨
        IsCallTo c nmRWMutexUnlock = true) →
      ¬ (containsSub (strLower c.render) dotUnlock = true ∨
        containsSub (strLower c.render) dotRUnlock = true) →
      isCallToUnlock c = false) := by
  have textTrue : (containsSub (strLower c.render) dotUnlock = true ∨
      containsSub (strLower c.render) dotRUnlock = true) → isCallToUnlock c = true := by
    intro htxt
    have htxt' : (containsSub (strLower c.render) dotUnlock ||
        containsSub (strLower c.render) dotRUnlock) = true := by
      rcases htxt with h | h <;> simp [h]
    unfold isCallToUnlock
    by_cases hcond : (IsCallTo c nmMutexUnlock || IsCallTo c nmRWMutexRUnlock ||
        IsCallTo c nmRWMutexUnLockTypo) = true
    · simp [hcond]
    · simp only [hcond, if_false, Bool.false_eq_true]
      simp [htxt']
  refine ⟨?_, textTrue, ?_⟩
  · rintro (h | h | h)
    · unfold isCallToUnlock
      simp [h]
    · unfold isCallToUnlock
      simp [h]
    · -- the real Unlock method is caught by the textual containment
      have hn : CallName c = nmRWMutexUnlock := by
        have := h
        unfold IsCallTo at this
        exact eq_of_beq this
      have : containsSub (strLower c.render) dotUnlock = true :=
        containsSub_lower_render c hr nmRWMutexUnlock dotUnlock hn (by decide)
          (by decide)
      exact textTrue (Or.inl this)
  · intro hno htxt
    have h1 : IsCallTo c nmMutexUnlock = false := by
      rcases h : IsCallTo c nmMutexUnlock
      · rfl
      · exact absurd (Or.inl h) hno
    have h2 : IsCallTo c nmRWMutexRUnlock = false := by
      rcases h : IsCallTo c nmRWMutexRUnlock
      · rfl
      · exact absurd (Or.inr (Or.inl h)) hno
    have h3 : IsCallTo c nmRWMutexUnLockTypo = false := by
      rcases h : IsCallTo c nmRWMutexUnLockTypo
      · rfl
      · exfalso
        have hn : CallName c = nmRWMutexUnLockTypo := by
          unfold IsCallTo at h
          exact eq_of_beq h
        have : containsSub (strLower c.render) dotUnlock = true :=
          containsSub_lower_render c hr nmRWMutexUnLockTypo dotUnlock hn (by decide)
            (by decide)
        exact htxt (Or.inl this)
    have ht1 : containsSub (strLower c.render) dotUnlock = false := by
      rcases h : containsSub (strLower c.render) dotUnlock
      · rfl
      · exact absurd (Or.inl h) htxt
    have ht2 : containsSub (strLower c.render) dotRUnlock = false := by
      rcases h : containsSub (strLower c.render) dotRUnlock
      · rfl
      · exact absurd (Or.inr h) htxt
    simp [isCallToUnlock, h1, h2, h3, ht1, ht2]

/-- C5 witness: a call to the real method `(*sync.RWMutex).Unlock` is
accepted. -/
theorem C5_isCallToUnlock_spec_witness : isCallToUnlock exRWUnlockCall = true :=
  (C5_isCallToUnlock_spec exRWUnlockCall
    (fun _ => ⟨"t0)".toList, by decide⟩)).1 (Or.inr (Or.inr (by decide)))

/-!
## Claim theorems: isLockToLockInSameBlock (C2)
-/

/-- The state update `if k = w then k else idxSt w k` advances `idxSt`. -/
theorem stepSt (w k : Nat) :
    (if k = w then (k : Int) else idxSt w k) = idxSt w (k + 1) := by
  unfold idxSt
  by_cases hw : k = w
  · subst hw
    simp [Nat.lt_succ_self]
  · have hiff : w < k + 1 ↔ w < k := by omega
    by_cases h1 : w < k
    · simp [hw, h1, hiff.mpr h1]
    · have h2 : ¬ w < k + 1 := fun h => h1 (hiff.mp h)
      simp [hw, h1, h2]

/-- The early-exit condition of the scan, in arithmetic form. -/
theorem exitCond_iff (fIdx sIdx k : Nat) :
    ((decide (idxSt fIdx (k + 1) < (k : Int)) && idxSt sIdx k == (-1 : Int) &&
        !(idxSt fIdx (k + 1) == (-1 : Int))) ||
      (decide (idxSt sIdx k < (k : Int)) && idxSt fIdx (k + 1) == (-1 : Int) &&
        !(idxSt sIdx k == (-1 : Int)))) = true ↔
    ((fIdx < k ∧ k ≤ sIdx) ∨ (sIdx < k ∧ k < fIdx)) := by
  by_cases h1 : fIdx < k + 1 <;> by_cases h2 : sIdx < k <;>
    simp [idxSt, h1, h2] <;> omega

/-- Characterization of the scanning loop: starting at instruction index `k`
with the states an honest scan would have reached, the scan accepts exactly
when `fIdx < sIdx` and no remaining index `u` with `fIdx < u ≤ sIdx` holds
an unlock call of the watched prefix. -/
theorem l2lAux_char (instrs : List Instr) (fIdx sIdx : Nat) (fPref : Str)
    (fc sc : CallCommon)
    (hf : instrs.get? fIdx = some (Instr.call fc))
    (hs : instrs.get? sIdx = some (Instr.call sc)) :
    ∀ (l : List Instr) (k : Nat) (uI : Int), instrs.drop k = l →
      (l2lAux fIdx sIdx fPref l k (idxSt fIdx k) (idxSt sIdx k) uI = true ↔
        (fIdx < sIdx ∧ ¬ ∃ u, k ≤ u ∧ fIdx < u ∧ u ≤ sIdx ∧
          isUnlockPos instrs fPref u = true)) := by
  have hfl : fIdx < instrs.length := by
    by_contra hc
    push_neg at hc
    rw [List.get?_eq_none.mpr hc] at hf
    cases hf
  have hsl : sIdx < instrs.length := by
    by_contra hc
    push_neg at hc
    rw [List.get?_eq_none.mpr hc] at hs
    cases hs
  intro l
  induction l with
  | nil =>
    intro k uI hdrop
    have hlen : instrs.length ≤ k := List.drop_eq_nil_iff.mp hdrop
    have hfk : idxSt fIdx k = (fIdx : Int) := by
      unfold idxSt
      simp [Nat.lt_of_lt_of_le hfl hlen]
    have hsk : idxSt sIdx k = (sIdx : Int) := by
      unfold idxSt
      simp [Nat.lt_of_lt_of_le hsl hlen]
    rw [hfk, hsk]
    simp only [l2lAux, decide_eq_true_eq]
    constructor
    · intro h
      refine ⟨by exact_mod_cast h, ?_⟩
      rintro ⟨u, hku, _, hus, _⟩
      omega
    · rintro ⟨h, _⟩
      exact_mod_cast h
  | cons ins rest ih =>
    intro k uI hdrop
    have hk : instrs.get? k = some ins := by
      have h0 := List.getElem?_drop instrs k 0
      simp [hdrop] at h0
      simp [List.get?_eq_getElem?, ← h0]
    have hdrop2 : instrs.drop (k + 1) = rest := by
      have h1 : (instrs.drop k).drop 1 = rest := by simp [hdrop]
      simpa [List.drop_drop, Nat.add_comm] using h1
    by_cases hcall : ∃ c, ins = Instr.call c
    · rcases hcall with ⟨c, rfl⟩
      simp only [l2lAux]
      rw [stepSt fIdx k, stepSt sIdx k]
      by_cases hU : (isCallToUnlock c && (getLockPrefix c == fPref)) = true
      · have hUk : isUnlockPos instrs fPref k = true := by
          unfold isUnlockPos
          rw [hk]
          exact hU
        rw [if_pos hU]
        by_cases hE : ((fIdx < k ∧ k ≤ sIdx) ∨ (sIdx < k ∧ k < fIdx))
        · rw [if_pos ((exitCond_iff fIdx sIdx k).mpr hE)]
          simp only [Bool.false_eq_true, false_iff, not_and, not_not]
          intro hfs
          rcases hE with ⟨h1, h2⟩ | ⟨h1, h2⟩
          · exact ⟨k, le_rfl, h1, h2, hUk⟩
          · omega
        · rw [if_neg (fun h => hE ((exitCond_iff fIdx sIdx k).mp h))]
          rw [ih (k + 1) (k : Int) hdrop2]
          constructor
          · rintro ⟨h1, h2⟩
            refine ⟨h1, ?_⟩
            rintro ⟨u, hku, hfu, hus, hP⟩
            rcases Nat.eq_or_lt_of_le hku with rfl | hlt
            · exact hE (Or.inl ⟨hfu, hus⟩)
            · exact h2 ⟨u, hlt, hfu, hus, hP⟩
          · rintro ⟨h1, h2⟩
            refine ⟨h1, ?_⟩
            rintro ⟨u, hku, hfu, hus, hP⟩
            exact h2 ⟨u, by omega, hfu, hus, hP⟩
      · have hUk : isUnlockPos instrs fPref k = false := by
          unfold isUnlockPos
          rw [hk]
          exact (Bool.not_eq_true _).mp hU
        rw [if_neg hU]
        rw [ih (k + 1) uI hdrop2]
        constructor
        · rintro ⟨h1, h2⟩
          refine ⟨h1, ?_⟩
          rintro ⟨u, hku, hfu, hus, hP⟩
          rcases Nat.eq_or_lt_of_le hku with rfl | hlt
          · rw [hUk] at hP
            cases hP
          · exact h2 ⟨u, hlt, hfu, hus, hP⟩
        · rintro ⟨h1, h2⟩
          refine ⟨h1, ?_⟩
          rintro ⟨u, hku, hfu, hus, hP⟩
          exact h2 ⟨u, by omega, hfu, hus, hP⟩
    · have hne : ∀ w : Nat, instrs.get? w = some (Instr.call fc) ∨
          instrs.get? w = some (Instr.call sc) → w ≠ k := by
        rintro w (hw | hw) rfl
        · rw [hk] at hw
          exact hcall ⟨fc, Option.some_inj.mp hw⟩
        · rw [hk] at hw
          exact hcall ⟨sc, Option.some_inj.mp hw⟩
      have hfne : fIdx ≠ k := hne fIdx (Or.inl hf)
      have hsne : sIdx ≠ k := hne sIdx (Or.inr hs)
      have hstep : l2lAux fIdx sIdx fPref (ins :: rest) k
          (idxSt fIdx k) (idxSt sIdx k) uI =
          l2lAux fIdx sIdx fPref rest (k + 1)
            (idxSt fIdx k) (idxSt sIdx k) uI := by
        cases ins <;> first | rfl | (exact absurd ⟨_, rfl⟩ hcall)
      have hfEq : idxSt fIdx k = idxSt fIdx (k + 1) := by
        have := stepSt fIdx k
        rwa [if_neg (fun h => hfne h.symm)] at this
      have hsEq : idxSt sIdx k = idxSt sIdx (k + 1) := by
        have := stepSt sIdx k
        rwa [if_neg (fun h => hsne h.symm)] at this
      rw [hstep, hfEq, hsEq, ih (k + 1) uI hdrop2]
      have hUk : isUnlockPos instrs fPref k = false := by
        unfold isUnlockPos
        rw [hk]
        cases ins
        case call c => exact absurd ⟨c, rfl⟩ hcall
        all_goals rfl
      constructor
      · rintro ⟨h1, h2⟩
        refine ⟨h1, ?_⟩
        rintro ⟨u, hku, hfu, hus, hP⟩
        rcases Nat.eq_or_lt_of_le hku with rfl | hlt
        · rw [hUk] at hP
          cases hP
        · exact h2 ⟨u, hlt, hfu, hus, hP⟩
      · rintro ⟨h1, h2⟩
        refine ⟨h1, ?_⟩
        rintro ⟨u, hku, hfu, hus, hP⟩
        exact h2 ⟨u, by omega, hfu, hus, hP⟩

/-- C2 (amended): for two lock calls `f`, `s` in the same block on the same
key, `isLockToLockInSameBlock` returns true iff `index(f) < index(s)` and no
unlock call of the key occurs at an index `u` with
`index(f) < u ≤ index(s)`.  (The bound is `≤ index(s)`, not `< index(s)`:
when the instruction at `index(s)` is itself also classified as an unlock of
the key, the scan meets it before registering the second lock and returns
false.)  Specialized at `f = s` this yields `false`, since
`index(f) < index(s)` fails. -/
theorem C2_isLockToLockInSameBlock_amended (instrs : List Instr)
    (fIdx sIdx : Nat) (fc sc : CallCommon)
    (hf : instrs.get? fIdx = some (Instr.call fc))
    (hs : instrs.get? sIdx = some (Instr.call sc)) :
    isLockToLockInSameBlock instrs fIdx sIdx = true ↔
      (fIdx < sIdx ∧ ∀ u, fIdx < u → u ≤ sIdx →
        isUnlockPos instrs (getLockPrefix fc) u = false) := by
  unfold isLockToLockInSameBlock
  rw [hf]
  have h0f : idxSt fIdx 0 = -1 := by unfold idxSt; simp
  have h0s : idxSt sIdx 0 = -1 := by unfold idxSt; simp
  have hchar := l2lAux_char instrs fIdx sIdx (getLockPrefix fc) fc sc hf hs
    instrs 0 (-1) (by simp)
  rw [h0f, h0s] at hchar
  rw [hchar]
  constructor
  · rintro ⟨h1, h2⟩
    refine ⟨h1, ?_⟩
    intro u hfu hus
    rcases hP : isUnlockPos instrs (getLockPrefix fc) u
    · rfl
    · exact absurd ⟨u, Nat.zero_le u, hfu, hus, hP⟩ h2
  · rintro ⟨h1, h2⟩
    refine ⟨h1, ?_⟩
    rintro ⟨u, _, hfu, hus, hP⟩
    rw [h2 u hfu hus] at hP
    cases hP

/-- C2 witness: two plain mutex lock calls on the same receiver with nothing
in between. -/
theorem C2_isLockToLockInSameBlock_amended_witness :
    isLockToLockInSameBlock
      [Instr.call exMutexLockCall, Instr.call exMutexLockCall] 0 1 = true :=
  (C2_isLockToLockInSameBlock_amended
    [Instr.call exMutexLockCall, Instr.call exMutexLockCall] 0 1
    exMutexLockCall exMutexLockCall rfl rfl).mpr
    ⟨Nat.zero_lt_one, by
      intro u h1 h2
      have : u = 1 := by omega
      subst this
      decide⟩

/-- C2 counterexample: the claim as stated (no unlock strictly between the
two indices) fails when the second lock call is itself also classified as an
unlock call of the key.  Here `f` is a plain `(*sync.Mutex).Lock` call and
`s` a user `Lock` method from package path `my.unlock.io/pkg`; both are lock
calls on key `t0`, `index(f) = 0 < 1 = index(s)`, and no unlock of the key
sits strictly between them, yet the function returns false. -/
theorem C2_counterexample :
    (isCallToLock exMutexLockCall = true ∧ isCallToLock exOddLockCall = true ∧
      getLockPrefix exOddLockCall = getLockPrefix exMutexLockCall ∧
      (0 : Nat) < 1 ∧
      (∀ u, 0 < u → u < 1 →
        isUnlockPos [Instr.call exMutexLockCall, Instr.call exOddLockCall]
          (getLockPrefix exMutexLockCall) u = false)) ∧
    isLockToLockInSameBlock
      [Instr.call exMutexLockCall, Instr.call exOddLockCall] 0 1 = false := by
  refine ⟨⟨by decide, by decide, by decide, Nat.zero_lt_one, ?_⟩, by decide⟩
  intro u h1 h2
  omega

/-!
## Claim theorems: isUnlockBeforeLock (C10)
-/

theorem ublAux_eq_lastMatch (key : Str) (l : List Instr) :
    ∀ (k : Nat) (a b : Int),
      ublAux key l k a b =
        decide (lastMatch (unlockP key) l k b < lastMatch (lockP key) l k a) := by
  induction l with
  | nil => intro k a b; rfl
  | cons ins rest ih =>
    intro k a b
    cases ins with
    | call c =>
      simp only [ublAux, lastMatch, lockP, unlockP]
      exact ih (k + 1) _ _
    | _ =>
      simp only [ublAux, lastMatch, lockP, unlockP, if_neg]
      exact ih (k + 1) a b

theorem lastMatch_of_none (p : Instr → Bool) (l : List Instr) :
    ∀ (k : Nat) (init : Int), (∀ ins ∈ l, p ins = false) →
      lastMatch p l k init = init := by
  induction l with
  | nil => intro k init _; rfl
  | cons ins rest ih =>
    intro k init h
    have h0 : p ins = false := h ins (List.mem_cons_self ins rest)
    simp only [lastMatch, h0, Bool.false_eq_true, if_false]
    exact ih (k + 1) init (fun x hx => h x (List.mem_cons_of_mem ins hx))

theorem lastMatch_cases (p : Instr → Bool) (l : List Instr) :
    ∀ (k : Nat) (init : Int),
      lastMatch p l k init = init ∨
        ∃ j ins, l.get? j = some ins ∧ p ins = true ∧
          lastMatch p l k init = ((k + j : Nat) : Int) := by
  induction l with
  | nil => intro k init; exact Or.inl rfl
  | cons ins rest ih =>
    intro k init
    by_cases h0 : p ins = true
    · simp only [lastMatch, h0, if_true]
      rcases ih (k + 1) (k : Int) with h | ⟨j, ins2, hj, hp, hv⟩
      · refine Or.inr ⟨0, ins, rfl, h0, ?_⟩
        rw [h]
        norm_num
      · refine Or.inr ⟨j + 1, ins2, hj, hp, ?_⟩
        rw [hv]
        congr 1
        omega
    · have h0' : p ins = false := by
        rcases h : p ins
        · rfl
        · exact absurd h h0
      simp only [lastMatch, h0', Bool.false_eq_true, if_false]
      rcases ih (k + 1) init with h | ⟨j, ins2, hj, hp, hv⟩
      · exact Or.inl h
      · refine Or.inr ⟨j + 1, ins2, hj, hp, ?_⟩
        rw [hv]
        congr 1
        omega

theorem lastMatch_ge_init (p : Instr → Bool) (l : List Instr) :
    ∀ (k : Nat) (init : Int), init ≤ (k : Int) →
      init ≤ lastMatch p l k init := by
  induction l with
  | nil => intro k init _; exact le_refl init
  | cons ins rest ih =>
    intro k init hik
    by_cases h0 : p ins = true
    · simp only [lastMatch, h0, if_true]
      have := ih (k + 1) (k : Int) (by exact_mod_cast Nat.le_succ k)
      exact le_trans hik this
    · have h0' : p ins = false := by
        rcases h : p ins
        · rfl
        · exact absurd h h0
      simp only [lastMatch, h0', Bool.false_eq_true, if_false]
      exact ih (k + 1) init (le_trans hik (by exact_mod_cast Nat.le_succ k))

theorem lastMatch_ge_pos (p : Instr → Bool) (l : List Instr) :
    ∀ (k : Nat) (init : Int) (j : Nat) (ins : Instr),
      l.get? j = some ins → p ins = true →
      ((k + j : Nat) : Int) ≤ lastMatch p l k init := by
  induction l with
  | nil =>
    intro k init j ins hj _
    simp at hj
  | cons ins0 rest ih =>
    intro k init j ins hj hp
    cases j with
    | zero =>
      have : ins0 = ins := Option.some_inj.mp hj
      subst this
      simp only [lastMatch, hp, if_true]
      have := lastMatch_ge_init p rest (k + 1) (k : Int)
        (by exact_mod_cast Nat.le_succ k)
      simpa using this
    | succ j2 =>
      have hj2 : rest.get? j2 = some ins := hj
      have := ih (k + 1) (if p ins0 then (k : Int) else init) j2 ins hj2 hp
      simp only [lastMatch]
      have harith : ((k + (j2 + 1) : Nat) : Int) = ((k + 1 + j2 : Nat) : Int) := by
        congr 1
        omega
      rw [harith]
      exact this

/-- C10: `isUnlockBeforeLock` returns false whenever the block contains no
lock call of the key — even when it does contain an unlock of the key — and
when it returns true the block contains a lock call of the key at an index
strictly greater than every index holding an unlock call of the key.  So the
cross-function guard in `_isDoubleLock` suppresses a report only when the
second lock's block re-locks the key after its last unlock of the key, never
on the strength of an unlock alone. -/
theorem C10_isUnlockBeforeLock_spec (instrs : List Instr) (key : Str) :
    ((∀ u, isLockPos instrs key u = false) →
      isUnlockBeforeLock instrs key = false) ∧
    (isUnlockBeforeLock instrs key = true →
      ∃ i, isLockPos instrs key i = true ∧
        ∀ j, isUnlockPos instrs key j = true → j < i) := by
  constructor
  · intro hno
    unfold isUnlockBeforeLock
    rw [ublAux_eq_lastMatch]
    have hnol : ∀ ins ∈ instrs, lockP key ins = false := by
      intro ins hins
      rcases List.get_of_mem hins with ⟨⟨u, hu⟩, hget⟩
      have hgu : instrs.get? u = some ins := by
        rw [List.get?_eq_get hu, hget]
      have := hno u
      unfold isLockPos at this
      rw [hgu] at this
      exact this
    rw [lastMatch_of_none (lockP key) instrs 0 (-1) hnol]
    have hge := lastMatch_ge_init (unlockP key) instrs 0 (-1) (by norm_num)
    simp only [decide_eq_false_iff_not, not_lt]
    exact hge
  · intro htrue
    unfold isUnlockBeforeLock at htrue
    rw [ublAux_eq_lastMatch] at htrue
    have hlt := of_decide_eq_true htrue
    rcases lastMatch_cases (lockP key) instrs 0 (-1) with hL | ⟨i, insL, hiL, hpL, hvL⟩
    · exfalso
      rw [hL] at hlt
      have hge := lastMatch_ge_init (unlockP key) instrs 0 (-1) (by norm_num)
      omega
    · refine ⟨i, ?_, ?_⟩
      · unfold isLockPos
        rw [hiL]
        exact hpL
      · intro j hj
        have hins : ∃ ins, instrs.get? j = some ins ∧ unlockP key ins = true := by
          unfold isUnlockPos at hj
          rcases hg : instrs.get? j with _ | ins
          · rw [hg] at hj
            cases hj
          · rw [hg] at hj
            refine ⟨ins, rfl, ?_⟩
            cases ins with
            | call c => exact hj
            | _ => cases hj
        rcases hins with ⟨ins, hgj, hpu⟩
        have hub := lastMatch_ge_pos (unlockP key) instrs 0 (-1) j ins hgj hpu
        rw [hvL] at hlt
        simp only [Nat.zero_add] at hub hlt
        have : (j : Int) < (i : Int) := lt_of_le_of_lt hub hlt
        exact_mod_cast this

/-- C10 witness: a block holding only an unlock call of the key. -/
theorem C10_isUnlockBeforeLock_spec_witness :
    isUnlockBeforeLock [Instr.call exMutexUnlockCall] "t0".toList = false := by
  refine (C10_isUnlockBeforeLock_spec [Instr.call exMutexUnlockCall]
    "t0".toList).1 ?_
  intro u
  rcases u with _ | n
  · decide
  · rfl

/-!
## Claim theorems: the self double-lock case (C1)
-/

/-- The same-block scan with `fLock = sLock` never accepts: both index
states evolve identically, the early-exit condition needs exactly one of
them set, and the final comparison is irreflexive. -/
theorem l2lAux_self (i : Nat) (fPref : Str) (l : List Instr) :
    ∀ (k : Nat) (x uI : Int), l2lAux i i fPref l k x x uI = false := by
  induction l with
  | nil =>
    intro k x uI
    simp [l2lAux]
  | cons ins rest ih =>
    intro k x uI
    cases ins with
    | call c =>
      simp only [l2lAux]
      generalize (if k = i then (k : Int) else x) = y
      split
      · split
        · rfl
        · exact ih (k + 1) _ _
      · exact ih (k + 1) _ _
    | _ => exact ih (k + 1) x uI

theorem isLockToLockInSameBlock_self (instrs : List Instr) (i : Nat) :
    isLockToLockInSameBlock instrs i i = false := by
  unfold isLockToLockInSameBlock
  exact l2lAux_self i _ instrs 0 (-1) (-1)

/-- A search whose source already satisfies the target predicate returns the
empty edge sequence. -/
theorem pathSearchIgnoreGoCall_self (P : Program) (a : Nat) :
    pathSearchIgnoreGoCall P a a = some [] := by
  unfold pathSearchIgnoreGoCall psAux
  simp

/-- C1: for any call instruction `L` and key `k`, `_isDoubleLock(L, L, k)`
returns true iff `L`'s block is inside a loop of its parent function and the
lock-path search of `findPath` from that block back to itself succeeds under
the no-intervening-unlock-of-`k` predicate.  The same-block check
`isLockToLockInSameBlock(L, L)` never holds, and the cross-function case
yields the empty path for the self pair, so no other case applies. -/
theorem C1_isDoubleLock_self (P : Program) (l : Loc) (k : Str)
    (c : CallCommon) (hc : callAt P l = some c) :
    _isDoubleLock P l l k =
      (isInLoop P l.fid l.bid && findPath P (l.fid, l.bid) (l.fid, l.bid) k) := by
  unfold _isDoubleLock
  rw [hc]
  simp only [beq_self_eq_true, Bool.not_true, Bool.false_eq_true, if_false,
    and_self, if_true, isLockToLockInSameBlock_self, pathSearchIgnoreGoCall_self]
  rcases hl : isInLoop P l.fid l.bid <;>
    rcases hp : findPath P (l.fid, l.bid) (l.fid, l.bid) k <;>
    simp [hl, hp]

/-- C1 witness: the first lock call of the example program, which sits in no
loop. -/
theorem C1_isDoubleLock_self_witness :
    _isDoubleLock exP8 ⟨0, 0, 0⟩ ⟨0, 0, 0⟩ "t1".toList =
      (isInLoop exP8 0 0 && findPath exP8 (0, 0) (0, 0) "t1".toList) :=
  C1_isDoubleLock_self exP8 ⟨0, 0, 0⟩ "t1".toList
    (lockCallOn "t1".toList) rfl

/-!
## Claim theorems: applyStdlibKnowledge idempotence (C7)
-/

theorem get?_set_ne' {α : Type} (l : List α) (i j : Nat) (a : α) (h : i ≠ j) :
    (l.set i a).get? j = l.get? j := by
  simp [List.get?_eq_getElem?, List.getElem?_set_ne h]

theorem get?_set_self' {α : Type} (l : List α) (i : Nat) (a : α)
    (h : i < l.length) : (l.set i a).get? i = some a := by
  simp [List.get?_eq_getElem?, List.getElem?_set_self, h]

/-- The decision reads only the instruction and successor lists. -/
theorem blockDecision_core (i : List Instr) (s p1 p2 : List Nat) :
    blockDecision ⟨i, s, p1⟩ = blockDecision ⟨i, s, p2⟩ := rfl

/-- A rewritten block is inert: its successor list has length 1, so the
second guard of the pass skips it, whatever its predecessor list. -/
theorem blockDecision_rewrite (b : BBlock) (p s1 : Nat)
    (h : blockDecision b = some (some (p, s1))) (preds2 : List Nat) :
    blockDecision ⟨b.instrs.set p Instr.jump, b.succs.take 1, preds2⟩ =
      some none := by
  unfold blockDecision at h ⊢
  by_cases h3 : b.instrs.length < 3
  · rw [if_pos h3] at h
    simp at h
  · rw [if_neg h3] at h
    by_cases hs : b.succs.length ≠ 2
    · rw [if_pos hs] at h
      simp at h
    · push_neg at hs
      have h3' : ¬ (⟨b.instrs.set p Instr.jump, b.succs.take 1, preds2⟩ :
          BBlock).instrs.length < 3 := by
        simpa using h3
      rw [if_neg h3']
      have hs' : (⟨b.instrs.set p Instr.jump, b.succs.take 1, preds2⟩ :
          BBlock).succs.length ≠ 2 := by
        simp [hs]
      rw [if_pos hs']

/-- `applyBlock` changes the instruction or successor lists of no block
other than the one it processes. -/
theorem coreAt_applyBlock (B : List BBlock) (bid : Nat) (B2 : List BBlock)
    (h : applyBlock B bid = some B2) (j : Nat) (hj : j ≠ bid) :
    coreAt B2 j = coreAt B j := by
  unfold applyBlock at h
  rcases hb : B.get? bid with _ | b
  · simp only [hb] at h
    rw [← Option.some_inj.mp h]
  · simp only [hb] at h
    rcases hd : blockDecision b with _ | md
    · simp only [hd] at h
      exact Option.noConfusion h
    · rcases md with _ | ⟨p, s1⟩
      · simp only [hd] at h
        rw [← Option.some_inj.mp h]
      · simp only [hd] at h
        have hB2 : B2 = removePredAt (B.set bid (rewriteBlock b p)) s1 bid :=
          (Option.some_inj.mp h).symm
        subst hB2
        unfold coreAt removePredAt
        rcases hsb : (B.set bid (rewriteBlock b p)).get? s1 with _ | sb
        · simp only [hsb]
          rw [get?_set_ne' B bid j (rewriteBlock b p) (fun he => hj he.symm)]
        · simp only [hsb]
          by_cases hjs : j = s1
          · subst hjs
            have hlt : j < (B.set bid (rewriteBlock b p)).length := by
              by_contra hc
              push_neg at hc
              rw [List.get?_eq_none.mpr hc] at hsb
              cases hsb
            rw [get?_set_self' _ j _ hlt]
            have hBj : B.get? j = some sb := by
              rw [← hsb]
              exact (get?_set_ne' B bid j (rewriteBlock b p)
                (fun he => hj he.symm)).symm
            rw [hBj]
            rfl
          · rw [get?_set_ne' _ s1 j _ (fun he => hjs he.symm)]
            rw [get?_set_ne' B bid j (rewriteBlock b p) (fun he => hj he.symm)]

/-- After `applyBlock` succeeds, the processed block is inert. -/
theorem decisionAt_applyBlock (B : List BBlock) (bid : Nat) (B2 : List BBlock)
    (h : applyBlock B bid = some B2) : decisionAt B2 bid = some none := by
  unfold applyBlock at h
  rcases hb : B.get? bid with _ | b
  · simp only [hb] at h
    have hBB : B = B2 := Option.some_inj.mp h
    subst hBB
    unfold decisionAt
    simp only [hb]
  · simp only [hb] at h
    rcases hd : blockDecision b with _ | md
    · simp only [hd] at h
      exact Option.noConfusion h
    · rcases md with _ | ⟨p, s1⟩
      · simp only [hd] at h
        have hBB : B = B2 := Option.some_inj.mp h
        subst hBB
        unfold decisionAt
        simp only [hb]
        exact hd
      · simp only [hd] at h
        have hB2 : B2 = removePredAt (B.set bid (rewriteBlock b p)) s1 bid :=
          (Option.some_inj.mp h).symm
        subst hB2
        have hlt : bid < B.length := by
          by_contra hc
          push_neg at hc
          rw [List.get?_eq_none.mpr hc] at hb
          cases hb
        have hset : (B.set bid (rewriteBlock b p)).get? bid =
            some (rewriteBlock b p) := by
          rw [get?_set_self' B bid (rewriteBlock b p) hlt]
        unfold decisionAt removePredAt
        rcases hsb : (B.set bid (rewriteBlock b p)).get? s1 with _ | sb
        · simp only [hsb, hset]
          exact blockDecision_rewrite b p s1 hd b.preds
        · simp only [hsb]
          by_cases hbs : s1 = bid
          · subst hbs
            have hsb' : sb = rewriteBlock b p := by
              rw [hset] at hsb
              exact (Option.some_inj.mp hsb).symm
            subst hsb'
            have hlt2 : s1 < (B.set s1 (rewriteBlock b p)).length := by
              simpa using hlt
            rw [get?_set_self' _ s1 _ hlt2]
            exact blockDecision_rewrite b p s1 hd _
          · rw [get?_set_ne' _ s1 bid _ hbs, hset]
            exact blockDecision_rewrite b p s1 hd b.preds

/-- An inert block is left untouched. -/
theorem applyBlock_of_inert (B : List BBlock) (bid : Nat)
    (h : decisionAt B bid = some none) : applyBlock B bid = some B := by
  unfold decisionAt at h
  unfold applyBlock
  rcases hb : B.get? bid with _ | b
  · simp only [hb]
  · simp only [hb] at h ⊢
    rw [h]

/-- The decision depends only on the instruction and successor lists. -/
theorem blockDecision_ext (b b2 : BBlock) (hi : b.instrs = b2.instrs)
    (hs : b.succs = b2.succs) : blockDecision b = blockDecision b2 := by
  rcases b with ⟨bi, bs, bp⟩
  rcases b2 with ⟨ci, cs, cp⟩
  have hi2 : bi = ci := hi
  have hs2 : bs = cs := hs
  subst hi2
  subst hs2
  exact blockDecision_core bi bs bp cp

/-- The decision depends only on the block's core. -/
theorem decisionAt_congr (B B2 : List BBlock) (j : Nat)
    (h : coreAt B j = coreAt B2 j) : decisionAt B j = decisionAt B2 j := by
  unfold coreAt at h
  unfold decisionAt
  rcases h1 : B.get? j with _ | b
  · rcases h2 : B2.get? j with _ | b2
    · rfl
    · rw [h1, h2] at h
      exact absurd h (by simp)
  · rcases h2 : B2.get? j with _ | b2
    · rw [h1, h2] at h
      exact absurd h (by simp)
    · rw [h1, h2] at h
      show blockDecision b = blockDecision b2
      simp at h
      exact blockDecision_ext b b2 h.1 h.2

theorem applyBlock_length (B : List BBlock) (bid : Nat) (B2 : List BBlock)
    (h : applyBlock B bid = some B2) : B2.length = B.length := by
  unfold applyBlock at h
  rcases hb : B.get? bid with _ | b
  · simp only [hb] at h
    rw [← Option.some_inj.mp h]
  · simp only [hb] at h
    rcases hd : blockDecision b with _ | md
    · simp only [hd] at h
      exact Option.noConfusion h
    · rcases md with _ | ⟨p, s1⟩
      · simp only [hd] at h
        rw [← Option.some_inj.mp h]
      · simp only [hd] at h
        have hB2 : B2 = removePredAt (B.set bid (rewriteBlock b p)) s1 bid :=
          (Option.some_inj.mp h).symm
        subst hB2
        unfold removePredAt
        rcases hsb : (B.set bid (rewriteBlock b p)).get? s1 with _ | sb <;>
          simp [hsb]

theorem foldBlocks_length (bids : List Nat) :
    ∀ (B C : List BBlock), foldBlocks bids B = some C → C.length = B.length := by
  induction bids with
  | nil =>
    intro B C h
    rw [← Option.some_inj.mp h]
  | cons b0 rest ih =>
    intro B C h
    unfold foldBlocks at h
    rcases hap : applyBlock B b0 with _ | B1
    · simp only [hap] at h
      exact Option.noConfusion h
    · simp only [hap] at h
      rw [ih B1 C h, applyBlock_length B b0 B1 hap]

/-- After a successful pass, untouched indices keep their cores and every
processed index is inert. -/
theorem foldBlocks_spec (bids : List Nat) :
    ∀ (B C : List BBlock), foldBlocks bids B = some C →
      (∀ j, j ∉ bids → coreAt C j = coreAt B j) ∧
      (bids.Nodup → ∀ bid ∈ bids, decisionAt C bid = some none) := by
  induction bids with
  | nil =>
    intro B C h
    have : B = C := Option.some_inj.mp h
    subst this
    exact ⟨fun _ _ => rfl, fun _ bid hbid => absurd hbid (List.not_mem_nil _)⟩
  | cons b0 rest ih =>
    intro B C h
    unfold foldBlocks at h
    rcases hap : applyBlock B b0 with _ | B1
    · simp only [hap] at h
      exact Option.noConfusion h
    · simp only [hap] at h
      rcases ih B1 C h with ⟨hcore, hdec⟩
      constructor
      · intro j hj
        have hj0 : j ≠ b0 := fun he => hj (he ▸ List.mem_cons_self b0 rest)
        have hjr : j ∉ rest := fun he => hj (List.mem_cons_of_mem b0 he)
        rw [hcore j hjr]
        exact coreAt_applyBlock B b0 B1 hap j hj0
      · intro hnd bid hbid
        have hnd2 := List.nodup_cons.mp hnd
        rcases List.mem_cons.mp hbid with rfl | hbr
        · have hc : coreAt C bid = coreAt B1 bid := hcore bid hnd2.1
          rw [decisionAt_congr C B1 bid hc]
          exact decisionAt_applyBlock B bid B1 hap
        · exact hdec hnd2.2 bid hbr

/-- A pass over inert blocks changes nothing. -/
theorem foldBlocks_inert (bids : List Nat) :
    ∀ (C : List BBlock), (∀ bid ∈ bids, decisionAt C bid = some none) →
      foldBlocks bids C = some C := by
  induction bids with
  | nil => intro C _; rfl
  | cons b0 rest ih =>
    intro C h
    unfold foldBlocks
    rw [applyBlock_of_inert C b0 (h b0 (List.mem_cons_self b0 rest))]
    exact ih C (fun bid hbid => h bid (List.mem_cons_of_mem b0 hbid))

/-- C7: the Tick-channel rewrite of `applyStdlibKnowledge` is idempotent:
applying it twice produces exactly the same function — same blocks with the
same instruction, successor and predecessor lists — as applying it once
(with panics propagating through `Option.bind`). -/
theorem C7_applyStdlibKnowledge_idem (fn : Func) :
    (applyStdlibKnowledge fn).bind applyStdlibKnowledge =
      applyStdlibKnowledge fn := by
  rcases hap : applyStdlibKnowledge fn with _ | g
  · rfl
  · show applyStdlibKnowledge g = some g
    unfold applyStdlibKnowledge at hap
    by_cases hemp : fn.blocks.isEmpty
    · rw [if_pos hemp] at hap
      have hg : g = fn := (Option.some_inj.mp hap).symm
      subst hg
      unfold applyStdlibKnowledge
      rw [if_pos hemp]
    · rw [if_neg hemp] at hap
      rcases hf : foldBlocks (List.range fn.blocks.length) fn.blocks with _ | Bg
      · rw [hf] at hap
        cases hap
      · rw [hf] at hap
        have hg : g = ⟨fn.name, Bg, fn.loops⟩ := (Option.some_inj.mp hap).symm
        subst hg
        have hlen : Bg.length = fn.blocks.length :=
          foldBlocks_length (List.range fn.blocks.length) fn.blocks Bg hf
        have hBgne : ¬ Bg.isEmpty = true := by
          have h0 : fn.blocks.length ≠ 0 := by
            intro hz
            rw [List.length_eq_zero] at hz
            rw [hz] at hemp
            exact hemp rfl
          have : Bg.length ≠ 0 := by
            rw [hlen]
            exact h0
          simp [List.isEmpty_iff]
          intro hz
          rw [hz] at this
          exact this rfl
        unfold applyStdlibKnowledge
        simp only [hBgne, Bool.false_eq_true, if_false]
        have hdec := (foldBlocks_spec (List.range fn.blocks.length)
          fn.blocks Bg hf).2 (List.nodup_range _)
        have hrange : (⟨fn.name, Bg, fn.loops⟩ : Func).blocks.length =
            fn.blocks.length := hlen
        rw [hrange]
        rw [foldBlocks_inert (List.range fn.blocks.length) Bg hdec]
        rfl

/-!
## Claim theorems: CheckConcurrentTesting (C6)
-/

/-- C6 (amended): `CheckConcurrentTesting` reports a go instruction exactly
when the launched function's own blocks contain a static `*testing.common`
fatal call — one report per qualifying call, naming the fatal method.  Fatal
calls that occur only in functions the launched function calls are not
reported (the scan does not recurse). -/
theorem C6_checkConcurrentTesting_amended (P : Program) (g : Loc) (nm : Str) :
    (⟨g, nm⟩ : CTDiag) ∈ checkConcurrentTesting P ↔
      (g.fid ∈ P.initialFuncs ∧
        ∃ c t fn, instrAt P g = some (Instr.goI c) ∧ goTargetFid c = some t ∧
          funcAt P t = some fn ∧
          ∃ b ∈ fn.blocks, ∃ ins ∈ b.instrs, ∃ c2,
            ins = Instr.call c2 ∧ qualifyingTestCall c2 = some nm) := by
  constructor
  · intro hmem
    unfold checkConcurrentTesting at hmem
    rcases List.mem_flatMap.mp hmem with ⟨fid, hfid, hmem2⟩
    rcases hfn : funcAt P fid with _ | fn
    · simp only [hfn] at hmem2
      cases hmem2
    · simp only [hfn] at hmem2
      rcases List.mem_flatMap.mp hmem2 with ⟨bid, hbid, hmem3⟩
      rcases List.mem_flatMap.mp hmem3 with ⟨idx, hidx, hmem4⟩
      rcases hins : (blkInstrs P fid bid).get? idx with _ | ins
      · simp only [hins] at hmem4
        cases hmem4
      · simp only [hins] at hmem4
        cases ins with
        | goI c =>
          rcases ht : goTargetFid c with _ | t
          · simp only [ht] at hmem4
            cases hmem4
          · simp only [ht] at hmem4
            rcases List.mem_map.mp hmem4 with ⟨nm2, hnm2, heq⟩
            have hg : g = ⟨fid, bid, idx⟩ :=
              ((CTDiag.mk.injEq _ _ _ _).mp heq.symm).1
            have hnmeq : nm = nm2 := ((CTDiag.mk.injEq _ _ _ _).mp heq.symm).2
            subst hg
            subst hnmeq
            refine ⟨hfid, c, t, ?_⟩
            unfold goReports at hnm2
            rcases hfn2 : funcAt P t with _ | fn2
            · simp only [hfn2] at hnm2
              cases hnm2
            · simp only [hfn2] at hnm2
              by_cases hemp : fn2.blocks.isEmpty
              · rw [if_pos hemp] at hnm2
                cases hnm2
              · rw [if_neg hemp] at hnm2
                rcases List.mem_flatMap.mp hnm2 with ⟨b, hb, hnm3⟩
                rcases List.mem_filterMap.mp hnm3 with ⟨ins2, hins2, hq⟩
                cases ins2 with
                | call c2 =>
                  exact ⟨fn2, hins, ht, rfl, b, hb, Instr.call c2, hins2,
                    c2, rfl, hq⟩
                | _ => cases hq
        | _ => simp at hmem4
  · rintro ⟨hinit, c, t, fn, hgo, ht, hfn, b, hb, ins, hins, c2, rfl, hq⟩
    have hblk : ∃ bobj, blockAt P g.fid g.bid = some bobj := by
      unfold instrAt at hgo
      unfold blkInstrs at hgo
      rcases hba : blockAt P g.fid g.bid with _ | bobj
      · rw [hba] at hgo
        simp at hgo
      · exact ⟨bobj, rfl⟩
    rcases hblk with ⟨bobj, hba⟩
    have hfn0 : ∃ fn0, funcAt P g.fid = some fn0 ∧
        fn0.blocks.get? g.bid = some bobj := by
      unfold blockAt at hba
      rcases hw : funcAt P g.fid with _ | fn0
      · rw [hw] at hba
        cases hba
      · rw [hw] at hba
        exact ⟨fn0, rfl, hba⟩
    rcases hfn0 with ⟨fn0, hw, hbg⟩
    have hbidlt : g.bid < fn0.blocks.length := by
      by_contra hc
      push_neg at hc
      rw [List.get?_eq_none.mpr hc] at hbg
      cases hbg
    have hidxlt : g.idx < (blkInstrs P g.fid g.bid).length := by
      unfold instrAt at hgo
      by_contra hc
      push_neg at hc
      rw [List.get?_eq_none.mpr hc] at hgo
      cases hgo
    unfold checkConcurrentTesting
    refine List.mem_flatMap.mpr ⟨g.fid, hinit, ?_⟩
    rw [hw]
    refine List.mem_flatMap.mpr ⟨g.bid, List.mem_range.mpr hbidlt, ?_⟩
    refine List.mem_flatMap.mpr ⟨g.idx, List.mem_range.mpr hidxlt, ?_⟩
    have hgo' : (blkInstrs P g.fid g.bid).get? g.idx = some (Instr.goI c) := hgo
    simp only [hgo', ht]
    refine List.mem_map.mpr ⟨nm, ?_, rfl⟩
    unfold goReports
    simp only [hfn]
    have hemp : fn.blocks.isEmpty = false := by
      have hne := List.ne_nil_of_mem hb
      simp [List.isEmpty_iff, hne]
    rw [if_neg (by simp [hemp])]
    refine List.mem_flatMap.mpr ⟨b, hb, ?_⟩
    exact List.mem_filterMap.mpr ⟨Instr.call c2, hins, hq⟩

/-- C6 counterexample: the go target `g` transitively reaches a
`*testing.common` fatal call (in its callee `h`), yet `CheckConcurrentTesting`
reports nothing, because the scan only inspects the launched function's own
blocks. -/
theorem C6_counterexample :
    specTransFatal exP6 1 = true ∧
    instrAt exP6 ⟨0, 0, 0⟩ = some (Instr.goI exGoCall) ∧
    goTargetFid exGoCall = some 1 ∧
    (0 : Nat) ∈ exP6.initialFuncs ∧
    checkConcurrentTesting exP6 = [] := by
  refine ⟨by decide, by decide, by decide, by decide, by decide⟩

/-!
## Claim theorems: CheckDoubleLock emission order (C8)
-/

/-- C8 (amended): the multiset of diagnostics of `CheckDoubleLock` does not
depend on the order in which the lock-key map is iterated — any two
iteration orders of the same keys produce permutations of each other — but
the emission order across distinct keys follows the map iteration order,
which Go leaves undefined. -/
theorem C8_checkDoubleLock_perm (P : Program) (ko1 ko2 : List Str)
    (h : ko1.Perm ko2) :
    (checkDoubleLock P ko1).Perm (checkDoubleLock P ko2) := by
  unfold checkDoubleLock
  exact h.flatMap_right _

/-- C8 witness: the two iteration orders of the example program's keys. -/
theorem C8_checkDoubleLock_perm_witness :
    (checkDoubleLock exP8 ["t1".toList, "t2".toList]).Perm
      (checkDoubleLock exP8 ["t2".toList, "t1".toList]) :=
  C8_checkDoubleLock_perm exP8 ["t1".toList, "t2".toList]
    ["t2".toList, "t1".toList] (by decide)

/-- C8 counterexample: on the example program, the two keys `t1` and `t2`
each produce one diagnostic, and iterating the key map in the two possible
orders emits the same two diagnostics in different sequences — so a run's
emission order is not the deterministic IR-traversal order promised by the
claim, and two runs of `CheckDoubleLock` need not agree on order. -/
theorem C8_counterexample :
    ((collectAllLocks exP8).map Prod.fst).Perm ["t1".toList, "t2".toList] ∧
    ((collectAllLocks exP8).map Prod.fst).Perm ["t2".toList, "t1".toList] ∧
    checkDoubleLock exP8 ["t1".toList, "t2".toList] ≠
      checkDoubleLock exP8 ["t2".toList, "t1".toList] := by
  refine ⟨by decide, by decide, by decide⟩

end GCB
